import Mathlib

/-!
Verification of the ristretto hierarchical test runner core.

Shallow embedding of the Topic/Test/Spec/Suite data model and of the
addressing, execution-order, context/cleanup and reporting logic of
`topic.ts` and `suite.ts`, together with spec-modelled stand-ins for the
parts of the repository whose sources are absent (`Spec.getTestByAddress`
from `spec.ts`, `cloneableResult` from `util.ts`).

JavaScript array indexing `arr[i]` (which yields `undefined` for any
out-of-range or negative index) is modelled by `listGetInt`; JavaScript
reference identity used by `Array.prototype.indexOf` and the
`spec.rootTopic === topic` comparison is modelled by structural equality on
node values that carry an allocation identifier `id`, so distinct
allocations are distinguishable.
-/

namespace Ristretto

/-- A leaf test node.  The implementation function and config live in the
absent `test.ts`; addressing and execution order depend only on the node
identity, so we keep the allocation id, the description, and the
reporting-relevant `isolated` config flag. -/
structure Test where
  id : Nat
  description : String
  isolated : Bool
deriving DecidableEq, Repr

/-- A `Topic` node from `topic.ts`: ordered child tests, ordered child
topics, ordered fixture functions and ordered cleanup functions.  Fixture
and cleanup functions are referenced by label (`Nat`); their bodies are
interpreted through an environment where behaviour matters (`context`,
`cleanupContext`).  The runtime parent back-reference is represented, where
an operation needs it, by an explicit leaf-to-root chain of topics. -/
inductive Topic where
  | mk (id : Nat) (description : String) (tests : List Test)
      (topics : List Topic) (fixtures : List Nat) (cleanups : List Nat)
deriving Repr

mutual

def topicDecEq : (a b : Topic) → Decidable (a = b)
  | .mk i1 d1 t1 s1 f1 c1, .mk i2 d2 t2 s2 f2 c2 =>
    match topicListDecEq s1 s2 with
    | isTrue hs =>
      if h : i1 = i2 ∧ d1 = d2 ∧ t1 = t2 ∧ f1 = f2 ∧ c1 = c2 then
        isTrue (by obtain ⟨h1, h2, h3, h4, h5⟩ := h; subst_vars; rfl)
      else
        isFalse (by intro he; injection he; simp_all)
    | isFalse hs => isFalse (by intro he; injection he; exact hs (by assumption))

def topicListDecEq : (a b : List Topic) → Decidable (a = b)
  | [], [] => isTrue rfl
  | [], _ :: _ => isFalse (by simp)
  | _ :: _, [] => isFalse (by simp)
  | x :: xs, y :: ys =>
    match topicDecEq x y, topicListDecEq xs ys with
    | isTrue h1, isTrue h2 => isTrue (by rw [h1, h2])
    | isFalse h1, _ => isFalse (by intro he; injection he; exact h1 (by assumption))
    | _, isFalse h2 => isFalse (by intro he; injection he; exact h2 (by assumption))

end

instance : DecidableEq Topic := topicDecEq

namespace Topic

def id : Topic → Nat
  | .mk i _ _ _ _ _ => i

def description : Topic → String
  | .mk _ d _ _ _ _ => d

def tests : Topic → List Test
  | .mk _ _ ts _ _ _ => ts

def topics : Topic → List Topic
  | .mk _ _ _ subs _ _ => subs

def fixtures : Topic → List Nat
  | .mk _ _ _ _ fs _ => fs

def cleanups : Topic → List Nat
  | .mk _ _ _ _ _ cs => cs

end Topic

/-- Model of `arr[i]` for a JavaScript array: `undefined` (here `none`) for a
negative or out-of-range index. -/
def listGetInt (l : List α) (i : Int) : Option α :=
  if 0 ≤ i then l.get? i.toNat else none

/-- A `Spec` owns one root `Topic` (the source `spec.ts` is absent; per the
spec the tree of a Spec is fully built before it is handed to a Suite, so the
lazily created root is present here). -/
structure Spec where
  rootTopic : Topic
deriving DecidableEq, Repr

/-- A `SuiteAddress` from `suite.ts`: spec index, topic index path, test
index.  Components are integers because `getAddressForTest` produces `-1`
for unresolved components. -/
structure SuiteAddress where
  spec : Int
  topic : List Int
  test : Int
deriving DecidableEq, Repr

/-- Walk from a topic through a path of child-topic indices, bounds-checked
at every level. -/
def Topic.topicAt : Topic → List Int → Option Topic
  | t, [] => some t
  | t, i :: rest =>
    match listGetInt t.topics i with
    | some c => Topic.topicAt c rest
    | none => none

/-- Modelled from the spec: `Spec.getTestByAddress` lives in the absent
`spec.ts`.  Per §4.3 it "walks the root topic through `address.topic`
indices (bounds-checked at each level), then indexes `address.test` among
the direct tests of that topic (bounds-checked); returns not-found (never
throws) on any out-of-range index". -/
def Spec.getTestByAddress (s : Spec) (a : SuiteAddress) : Option Test :=
  match s.rootTopic.topicAt a.topic with
  | some topic => listGetInt topic.tests a.test
  | none => none

/-- The `Suite` state relevant to addressing and running: the ordered specs,
the optional target address parsed from the query parameters, and the muted
flag. -/
structure Suite where
  specs : List Spec
  address : Option SuiteAddress
  isMuted : Bool
deriving DecidableEq, Repr

/-- The method `Suite.getTestByAddress`: dispatch to the spec at `address.spec`
(`undefined`, hence not-found, when out of range), else `null`. -/
def Suite.getTestByAddress (s : Suite) (a : SuiteAddress) : Option Test :=
  match listGetInt s.specs a.spec with
  | some spec => spec.getTestByAddress a
  | none => none

/-- JavaScript `Array.prototype.indexOf`: index of the first element identical to `x`,
or `-1` when absent.  Reference identity is modelled by structural equality
on id-carrying nodes. -/
def jsIndexOf [DecidableEq α] (x : α) : List α → Int
  | [] => -1
  | y :: ys =>
    if y = x then 0
    else
      let r := jsIndexOf x ys
      if r < 0 then -1 else r + 1

/-- The spec-scanning loop of `getAddressForTest`: `for` each spec in order,
if its root topic is (identical to) `t`, overwrite the accumulator with its
index; started with accumulator `-1`, so the last match wins. -/
def findSpecIdx (t : Topic) : List Spec → Int → Int → Int
  | [], _, acc => acc
  | sp :: rest, i, acc => findSpecIdx t rest (i + 1) (if sp.rootTopic = t then i else acc)

/-- The `while (topic != null)` loop of `Suite.getAddressForTest`, driven by
the runtime parent back-references, which are given here explicitly as the
leaf-to-root chain of topics starting at the own topic of the test.  For
every topic with a parent, the `indexOf` of the topic in the parent is
unshifted onto the
front of the topic address; for the parentless last topic the specs are
scanned.  Returns the accumulated topic address and the spec index. -/
def Suite.walkUp (s : Suite) : List Topic → List Int × Int
  | [] => ([], -1)
  | [t] => ([], findSpecIdx t s.specs 0 (-1))
  | t :: parent :: rest =>
    let r := s.walkUp (parent :: rest)
    (r.1 ++ [jsIndexOf t parent.topics], r.2)

/-- The method `Suite.getAddressForTest`: the test index is `indexOf` the
test in the test list of its own topic (`-1` when the test has no topic),
and the topic path and
spec index come from the upward walk. -/
def Suite.getAddressForTest (s : Suite) (test : Test) (chain : List Topic) : SuiteAddress :=
  let testIndex : Int :=
    match chain.head? with
    | some topic => jsIndexOf test topic.tests
    | none => -1
  let r := s.walkUp chain
  { spec := r.2, topic := r.1, test := testIndex }

/-- A list of topics is a genuine parent chain when every topic is a child
of the next one (the runtime invariant established by `addSubtopic`). -/
def chainLinked : List Topic → Bool
  | [] => true
  | [_] => true
  | t :: parent :: rest => decide (t ∈ parent.topics) && chainLinked (parent :: rest)

mutual

/-- The method `Suite.topicRun`: first the `for` loop over the direct tests
of the topic —
each test is re-resolved through `getTestByAddress` at the address built
from the current spec index, topic address and test position, and executed
when found — then the `for` loop over the subtopics, each visited with its
index pushed onto the topic address.  The result is the sequence of
executed tests. -/
def Suite.topicRun (s : Suite) : Topic → Int → List Int → List Test
  | .mk _ _ tests topics _ _, specIndex, topicAddress =>
    ((List.range tests.length).filterMap fun (i : Nat) =>
      s.getTestByAddress ⟨specIndex, topicAddress, (i : Int)⟩)
    ++ s.topicsRun topics 0 specIndex topicAddress

/-- The subtopic `for` loop of `topicRun`, carrying the loop counter. -/
def Suite.topicsRun (s : Suite) : List Topic → Nat → Int → List Int → List Test
  | [], _, _, _ => []
  | sub :: rest, i, specIndex, topicAddress =>
    s.topicRun sub specIndex (topicAddress ++ [(i : Int)])
    ++ s.topicsRun rest (i + 1) specIndex topicAddress

end

/-- The full-run `for` loop of `Suite.run` over the specs, carrying the
spec index. -/
def Suite.specsRun (s : Suite) : List Spec → Int → List Test
  | [], _ => []
  | sp :: rest, i => s.topicRun sp.rootTopic i [] ++ s.specsRun rest (i + 1)

/-- The method `Suite.run` as the sequence of executed tests: with a parsed address,
resolve exactly that test and run it when found (no-op otherwise); with no
address, run every spec in order. -/
def Suite.run (s : Suite) : List Test :=
  match s.address with
  | some a =>
    match s.getTestByAddress a with
    | some t => [t]
    | none => []
  | none => s.specsRun s.specs 0

mutual

/-- The spec-worded walk order (§4.4): the own tests of a topic first, then its
subtopics left-to-right, recursively. -/
def Topic.preorderTests : Topic → List Test
  | .mk _ _ tests topics _ _ => tests ++ Topic.preorderTestsList topics

def Topic.preorderTestsList : List Topic → List Test
  | [] => []
  | t :: rest => t.preorderTests ++ Topic.preorderTestsList rest

end

/-- A JavaScript error-like object: the `message` and `stack` own
properties (absent modelled as `none`) and any further own properties. -/
structure ErrObj where
  message : Option String
  stack : Option String
  extra : List (String × String)
deriving DecidableEq, Repr

/-- A test result as posted across the boundary: `passed`, and the `error`
field, where `none` models a falsy/absent error (e.g. `error: false`). -/
structure RunResult where
  passed : Bool
  error : Option ErrObj
deriving DecidableEq, Repr

/-- Modelled from the spec: `cloneableResult` lives in the absent
`util.ts`.  Per §6, "given a result whose `error` field is a native failure
object, produce a structurally-cloneable replacement preserving only the
stack trace text of the failure (not the message, not the object identity, not
arbitrary own properties) and leave `passed` unchanged; if there is no
error field, return the original result unchanged (no copy)". -/
def cloneableResult (r : RunResult) : RunResult :=
  match r.error with
  | some e => { passed := r.passed, error := some { message := none, stack := e.stack, extra := [] } }
  | none => r

/-- An observable effect of `Suite.testRun`: a console report line (the
argument list passed to `console.log`) or a result posted to the boundary
listener via `postMessage`. -/
inductive SuiteEvent where
  | consoleLog (parts : List String)
  | post (result : RunResult)
deriving DecidableEq, Repr

/-- The `resultLog` argument list `testRun` hands to `console.log`: the
behaviour text with the pass/fail tag and its style, prefixed by the
`ISOLATED` badge with its two spliced-in styles when the test is marked
isolated. -/
def reportLog (behaviorText : String) (isolated : Bool) (passed : Bool) : List String :=
  let resultString := if passed then " PASSED " else " FAILED "
  let resultColor := if passed then "green" else "red"
  let line := behaviorText ++ "... %c" ++ resultString
  let style := "color: #fff; font-weight: bold; background-color: " ++ resultColor
  if isolated then
    ["%c ISOLATED %c " ++ line,
     "background-color: #fd0; font-weight: bold; color: #830", "", style]
  else [line, style]

/-- `Suite.testRun`, as its sequence of observable effects, given the
muted flag of the suite, the `behaviorText` and `isolated` config
flag (fields of the absent `test.ts`), and the result produced by
`test.run`: unless muted, build the pass/fail console line and log it;
then always post the cloneable projection of the result. -/
def Suite.testRun (isMuted : Bool) (behaviorText : String) (isolated : Bool)
    (result : RunResult) : List SuiteEvent :=
  let consoleEvents :=
    if isMuted then []
    else [SuiteEvent.consoleLog (reportLog behaviorText isolated result.passed)]
  consoleEvents ++ [SuiteEvent.post (cloneableResult result)]

/-- The query parameters a `Suite` observes: the value of
`testrunner_suite_address` when that key is present, and whether
`testrunner_muted` is present. -/
structure QueryParams where
  suiteAddressParam : Option String
  mutedPresent : Bool
deriving DecidableEq, Repr

/-- The `Suite` constructor, lines 145–163 of `suite.ts`, with the host
`JSON.parse` (plus the unchecked cast to `SuiteAddress`) abstracted as the
`jsonParse` argument; a thrown exception is modelled as `Except.error`.
The address is parsed only when the parameter value is truthy — the empty
string is falsy, so it is never handed to `JSON.parse`. -/
def Suite.construct (jsonParse : String → Except String SuiteAddress)
    (specs : List Spec) (qp : QueryParams) : Except String Suite :=
  match qp.suiteAddressParam with
  | some str =>
    if str = "" then Except.ok { specs := specs, address := none, isMuted := qp.mutedPresent }
    else
      match jsonParse str with
      | Except.ok a => Except.ok { specs := specs, address := some a, isMuted := qp.mutedPresent }
      | Except.error e => Except.error e
  | none => Except.ok { specs := specs, address := none, isMuted := qp.mutedPresent }

/-- The `context` getter of `topic.ts`, over a leaf-to-root topic chain:
the parent context — or `\x7b\x7d` for the root — is threaded through the
own fixtures of the topic by `reduce`, where the return value of a fixture
replaces
the accumulator only when truthy (`fixture(context) || context`).  Fixture
bodies are interpreted by `env`; a fixture returning a falsy value is
modelled by `none`. -/
def contextOfChain (env : Nat → Ctx → Option Ctx) (base : Ctx) : List Topic → Ctx
  | [] => base
  | t :: rest =>
    t.fixtures.foldl (fun c f => ((env f) c).getD c) (contextOfChain env base rest)

/-- The spec-worded fixture fold (§3): all fixtures from the root topic
down to this topic, flattened root-to-leaf, folded left over the base
context with the same truthy-replacement step. -/
def chainFixturesRootToLeaf (chain : List Topic) : List Nat :=
  (chain.reverse.map Topic.fixtures).flatten

/-- The `for (let i = this.cleanups.length - 1; i > -1; --i)` loop of
`cleanupContext`: the sequence of cleanup invocations it performs, counting
the index down. -/
def cleanupLoop (cleanups : List Nat) : Nat → List Nat
  | 0 => []
  | n + 1 =>
    (match cleanups.get? n with
     | some c => [c]
     | none => []) ++ cleanupLoop cleanups n

/-- The method `Topic.cleanupContext` over a leaf-to-root topic chain, as
the sequence of cleanup invocations (cleanup label paired with the context
argument it receives): the own cleanups of the topic by the counting-down
loop, then the
recursion into the parent when there is one. -/
def cleanupContextTrace (ctx : Ctx) : List Topic → List (Nat × Ctx)
  | [] => []
  | t :: rest =>
    (cleanupLoop t.cleanups t.cleanups.length).map (fun c => (c, ctx))
    ++ cleanupContextTrace ctx rest

/-- The observable effects of a whole `Suite.run`: `run` awaits `testRun`
for each executed test in order, so the event stream is the concatenation
of the per-test event streams, given the per-test `behaviorText` and the
results their implementations produce. -/
def Suite.runEvents (s : Suite) (behaviorTextOf : Test → String)
    (resultOf : Test → RunResult) : List SuiteEvent :=
  s.run.flatMap fun t => Suite.testRun s.isMuted (behaviorTextOf t) t.isolated (resultOf t)

/-! Below is the four-test example tree of the spec (§8): an outer topic
named "a spec" whose direct tests are "has a test" and the trailing
"may include trailing tests", and whose only subtopic, "nested topic",
holds the tests "also has a test" and "may have another test". -/

def tOuter1 : Test := ⟨0, "has a test", false⟩

def tNested1 : Test := ⟨1, "also has a test", false⟩

def tNested2 : Test := ⟨2, "may have another test", false⟩

def tOuter2 : Test := ⟨3, "may include trailing tests", false⟩

def nestedTopic : Topic := .mk 11 "nested topic" [tNested1, tNested2] [] [] []

def exampleRootTopic : Topic := .mk 10 "a spec" [tOuter1, tOuter2] [nestedTopic] [] []

def exampleSpec : Spec := ⟨exampleRootTopic⟩

def exampleSuite : Suite := ⟨[exampleSpec], none, true⟩

/-- A topic that is not part of `exampleSuite` (a foreign allocation). -/
def foreignTopic : Topic := .mk 99 "foreign" [] [] [] []

/-- A test that is not part of `exampleSuite`. -/
def foreignTest : Test := ⟨100, "foreign test", false⟩

/-- The host `JSON.parse` on inputs it rejects, such as the empty string:
`JSON.parse("")` throws `SyntaxError: Unexpected end of JSON input`. -/
def emptyRejectingParse : String → Except String SuiteAddress :=
  fun _ => Except.error "SyntaxError: Unexpected end of JSON input"

/-- A concrete fixture environment over `Nat` contexts: fixture `0` returns
a replacement context, every other fixture returns a falsy value. -/
def demoEnv : Nat → Nat → Option Nat :=
  fun f c => if f = 0 then some (c + 1) else none

/-- The example suite in addressed mode, with an address whose topic path
is out of range. -/
def addressedMissSuite : Suite := ⟨[exampleSpec], some ⟨0, [3], 0⟩, false⟩

/-! Helper lemmas. -/

theorem listGetInt_natCast (l : List α) (i : Nat) : listGetInt l (i : Int) = l.get? i := by
  simp [listGetInt]

theorem jsIndexOf_not_mem [DecidableEq α] (x : α) (l : List α) (h : x ∉ l) :
    jsIndexOf x l = -1 := by
  induction l with
  | nil => rfl
  | cons y ys ih =>
    have hy : ¬ y = x := fun he => h (he ▸ List.mem_cons_self y ys)
    have hys : x ∉ ys := fun hm => h (List.mem_cons_of_mem _ hm)
    simp [jsIndexOf, hy, ih hys]

theorem jsIndexOf_mem [DecidableEq α] (x : α) (l : List α) (h : x ∈ l) :
    0 ≤ jsIndexOf x l ∧ listGetInt l (jsIndexOf x l) = some x := by
  induction l with
  | nil => simp at h
  | cons y ys ih =>
    by_cases hy : y = x
    · subst hy
      simp [jsIndexOf, listGetInt]
    · have hys : x ∈ ys := by
        cases h with
        | head => exact absurd rfl hy
        | tail _ hm => exact hm
      obtain ⟨hpos, hget⟩ := ih hys
      have hlt : ¬ jsIndexOf x ys < 0 := by omega
      constructor
      · simp [jsIndexOf, hy, hlt]; omega
      · have htn : (jsIndexOf x ys + 1).toNat = (jsIndexOf x ys).toNat + 1 := by omega
        simp only [jsIndexOf, hy, if_false, hlt, ite_false]
        simp only [listGetInt] at hget ⊢
        rw [if_pos (by omega), htn]
        rw [if_pos hpos] at hget
        simpa using hget

theorem topicAt_append (p q : List Int) : ∀ r : Topic,
    Topic.topicAt r (p ++ q) = (Topic.topicAt r p).bind (fun u => u.topicAt q) := by
  induction p with
  | nil => intro r; simp [Topic.topicAt]
  | cons i p ih =>
    intro r
    cases hg : listGetInt r.topics i with
    | none => simp [Topic.topicAt, hg]
    | some c => simp [Topic.topicAt, hg, ih c]

theorem topicAt_single (u : Topic) (i : Int) : u.topicAt [i] = listGetInt u.topics i := by
  cases hg : listGetInt u.topics i <;> simp [Topic.topicAt, hg]

theorem findSpecIdx_no_match (t : Topic) (specs : List Spec)
    (h : ∀ sp ∈ specs, sp.rootTopic ≠ t) : ∀ j acc, findSpecIdx t specs j acc = acc := by
  induction specs with
  | nil => intro j acc; rfl
  | cons sp rest ih =>
    intro j acc
    have h1 : ¬ sp.rootTopic = t := h sp (List.mem_cons_self sp rest)
    simp only [findSpecIdx, h1, ite_false]
    exact ih (fun sp' hm => h sp' (List.mem_cons_of_mem _ hm)) (j + 1) acc

theorem findSpecIdx_match (t : Topic) (specs : List Spec)
    (h : ∃ sp ∈ specs, sp.rootTopic = t) :
    ∃ k, ∃ sp', specs.get? k = some sp' ∧ sp'.rootTopic = t ∧
      ∀ j acc, findSpecIdx t specs j acc = j + (k : Int) := by
  induction specs with
  | nil => simp at h
  | cons sp rest ih =>
    by_cases hrest : ∃ sp' ∈ rest, sp'.rootTopic = t
    · obtain ⟨k, sp', hget, hroot, heq⟩ := ih hrest
      refine ⟨k + 1, sp', by simpa using hget, hroot, fun j acc => ?_⟩
      simp only [findSpecIdx]
      rw [heq (j + 1)]
      push_cast
      ring
    · obtain ⟨sp0, hm, hr⟩ := h
      have hsp0 : sp0 = sp := by
        cases hm with
        | head => rfl
        | tail _ hm' => exact absurd ⟨sp0, hm', hr⟩ hrest
      subst hsp0
      refine ⟨0, sp0, rfl, hr, fun j acc => ?_⟩
      simp only [findSpecIdx, hr, ite_true]
      rw [findSpecIdx_no_match t rest (fun sp' hm' hr' => hrest ⟨sp', hm', hr'⟩) (j + 1) j]
      push_cast
      ring

theorem walkUp_snd (s : Suite) : ∀ (chain : List Topic) (root : Topic),
    chain.getLast? = some root → (s.walkUp chain).2 = findSpecIdx root s.specs 0 (-1) := by
  intro chain
  induction chain with
  | nil => intro root h; simp at h
  | cons t rest ih =>
    intro root h
    cases rest with
    | nil =>
      simp only [List.getLast?_singleton, Option.some_inj] at h
      subst h
      rfl
    | cons parent rest' =>
      have h' : (parent :: rest').getLast? = some root := by
        rwa [List.getLast?_cons_cons] at h
      simp only [Suite.walkUp]
      exact ih root h'

theorem walkUp_topicAt (s : Suite) : ∀ (chain : List Topic) (root t0 : Topic),
    chainLinked chain = true → chain.getLast? = some root → chain.head? = some t0 →
    root.topicAt (s.walkUp chain).1 = some t0 := by
  intro chain
  induction chain with
  | nil => intro root t0 _ _ hh; simp at hh
  | cons t rest ih =>
    intro root t0 hlink hlast hhead
    simp only [List.head?_cons, Option.some_inj] at hhead
    subst hhead
    cases rest with
    | nil =>
      simp only [List.getLast?_singleton, Option.some_inj] at hlast
      subst hlast
      simp [Suite.walkUp, Topic.topicAt]
    | cons parent rest' =>
      have hconj : t ∈ parent.topics ∧ chainLinked (parent :: rest') = true := by
        simpa [chainLinked] using hlink
      have hlast' : (parent :: rest').getLast? = some root := by
        rwa [List.getLast?_cons_cons] at hlast
      have hp := ih root parent hconj.2 hlast' (by simp)
      simp only [Suite.walkUp]
      rw [topicAt_append, hp, Option.some_bind, topicAt_single]
      exact (jsIndexOf_mem t parent.topics hconj.1).2

theorem getTestByAddress_resolve (s : Suite) (si : Int) (p : List Int) (j : Int)
    (sp : Spec) (t : Topic) (h1 : listGetInt s.specs si = some sp)
    (h2 : sp.rootTopic.topicAt p = some t) :
    s.getTestByAddress ⟨si, p, j⟩ = listGetInt t.tests j := by
  simp [Suite.getTestByAddress, h1, Spec.getTestByAddress, h2]

theorem filterMap_range_get? (l : List α) :
    (List.range l.length).filterMap (fun i => l.get? i) = l := by
  induction l with
  | nil => rfl
  | cons x xs ih =>
    rw [List.length_cons, List.range_succ_eq_map, List.filterMap_cons, List.filterMap_map]
    have hz : (x :: xs).get? 0 = some x := rfl
    have hs : ((fun i => (x :: xs).get? i) ∘ Nat.succ) = fun i => xs.get? i := by
      funext i
      simp
    rw [hz, hs, ih]

theorem topicRun_preorder (s : Suite) : ∀ (n : Nat) (t : Topic), sizeOf t ≤ n →
    ∀ (si : Int) (p : List Int) (sp : Spec), listGetInt s.specs si = some sp →
    sp.rootTopic.topicAt p = some t → s.topicRun t si p = t.preorderTests := by
  intro n
  induction n with
  | zero =>
    intro t hsize
    exact absurd hsize (by cases t with | mk a b c d e f => simp)
  | succ n ih =>
    intro t hsize si p sp h1 h2
    cases t with
    | mk tid td tests topics tfix tcl =>
      have hmemsize : ∀ u ∈ topics, sizeOf u ≤ n := by
        intro u hu
        have h3 := List.sizeOf_lt_of_mem hu
        have h4 : sizeOf (Topic.mk tid td tests topics tfix tcl) =
            1 + sizeOf tid + sizeOf td + sizeOf tests + sizeOf topics + sizeOf tfix
              + sizeOf tcl := by
          simp
        omega
      have hresolve : ∀ i : Nat,
          s.getTestByAddress ⟨si, p, (i : Int)⟩ = tests.get? i := by
        intro i
        rw [getTestByAddress_resolve s si p (i : Int) sp _ h1 h2, listGetInt_natCast]
        rfl
      have htests : (List.range tests.length).filterMap
          (fun (i : Nat) => s.getTestByAddress ⟨si, p, (i : Int)⟩) = tests := by
        rw [funext hresolve]
        exact filterMap_range_get? tests
      have haux : ∀ (subs : List Topic) (j : Nat), subs = topics.drop j →
          s.topicsRun subs j si p = Topic.preorderTestsList subs := by
        intro subs
        induction subs with
        | nil => intro j _; simp [Suite.topicsRun, Topic.preorderTestsList]
        | cons sub rest ihs =>
          intro j hj
          have hget : topics.get? j = some sub := by
            have hdg := List.getElem?_drop topics j 0
            rw [← hj] at hdg
            simpa [List.get?_eq_getElem?] using hdg.symm
          have hrest : rest = topics.drop (j + 1) := by
            have hdd : List.drop 1 (topics.drop j) = topics.drop (j + 1) := by
              rw [List.drop_drop]
            rw [← hj] at hdd
            simpa using hdd
          have hsub_at : sp.rootTopic.topicAt (p ++ [(j : Int)]) = some sub := by
            rw [topicAt_append, h2, Option.some_bind, topicAt_single]
            show listGetInt topics (j : Int) = some sub
            rw [listGetInt_natCast]
            exact hget
          have hsubmem : sub ∈ topics := List.get?_mem hget
          simp only [Suite.topicsRun]
          rw [ih sub (hmemsize sub hsubmem) si (p ++ [(j : Int)]) sp h1 hsub_at]
          rw [ihs (j + 1) hrest]
          simp [Topic.preorderTestsList]
      simp only [Suite.topicRun, Topic.preorderTests]
      rw [htests, haux topics 0 (by simp)]

theorem specsRun_flatMap (s : Suite) : ∀ (rest : List Spec) (k : Nat),
    rest = s.specs.drop k →
    s.specsRun rest (k : Int) = rest.flatMap (fun sp => sp.rootTopic.preorderTests) := by
  intro rest
  induction rest with
  | nil => intro k _; simp [Suite.specsRun]
  | cons sp rest' ih =>
    intro k hk
    have hget : s.specs.get? k = some sp := by
      have hdg := List.getElem?_drop s.specs k 0
      rw [← hk] at hdg
      simpa [List.get?_eq_getElem?] using hdg.symm
    have hrest : rest' = s.specs.drop (k + 1) := by
      have hdd : List.drop 1 (s.specs.drop k) = s.specs.drop (k + 1) := by
        rw [List.drop_drop]
      rw [← hk] at hdd
      simpa using hdd
    have h1 : listGetInt s.specs (k : Int) = some sp := by
      rw [listGetInt_natCast]
      exact hget
    simp only [Suite.specsRun]
    rw [topicRun_preorder s (sizeOf sp.rootTopic) sp.rootTopic le_rfl (k : Int) [] sp h1 rfl]
    have hcast : ((k : Int) + 1) = ((k + 1 : Nat) : Int) := by push_cast; ring
    rw [hcast, ih (k + 1) hrest]
    simp [List.flatMap_cons]

/-! Claim theorems. -/

/-- Claim C1. For every Test actually present in (reachable from) one of
the Specs of a Suite — its topic chain is linked, ends at the root topic of
one of the specs of the suite, and the test is in the test list of its own
topic —
`Suite.getTestByAddress (Suite.getAddressForTest t)` returns exactly `t`:
`getAddressForTest` is a left inverse of `getTestByAddress` on contained
tests. -/
theorem getAddress_left_inverse (s : Suite) (test : Test) (chain : List Topic)
    (tp : Topic) (sp : Spec) (hlink : chainLinked chain = true) (hsp : sp ∈ s.specs)
    (hroot : chain.getLast? = some sp.rootTopic) (hhead : chain.head? = some tp)
    (htest : test ∈ tp.tests) :
    s.getTestByAddress (s.getAddressForTest test chain) = some test := by
  obtain ⟨k, sp', hget, hr', hfind⟩ :=
    findSpecIdx_match sp.rootTopic s.specs ⟨sp, hsp, rfl⟩
  have hsnd : (s.walkUp chain).2 = (k : Int) := by
    rw [walkUp_snd s chain sp.rootTopic hroot, hfind 0 (-1)]
    omega
  have hfst := walkUp_topicAt s chain sp.rootTopic tp hlink hroot hhead
  have hspget : listGetInt s.specs ((k : Nat) : Int) = some sp' := by
    rw [listGetInt_natCast]
    exact hget
  simp only [Suite.getAddressForTest, hhead]
  simp only [Suite.getTestByAddress, hsnd, hspget, Spec.getTestByAddress, hr', hfst]
  exact (jsIndexOf_mem test tp.tests htest).2

/-- Witness for `getAddress_left_inverse`: the second nested test of the
example tree round-trips through its address. -/
theorem getAddress_left_inverse_witness :
    exampleSuite.getTestByAddress
      (exampleSuite.getAddressForTest tNested2 [nestedTopic, exampleRootTopic])
      = some tNested2 :=
  getAddress_left_inverse exampleSuite tNested2 [nestedTopic, exampleRootTopic] nestedTopic
    exampleSpec (by decide) (by decide) (by decide) (by decide) (by decide)

theorem listGetInt_eq_none (l : List α) (i : Int)
    (h : i < 0 ∨ (l.length : Int) ≤ i) : listGetInt l i = none := by
  rcases h with h | h
  · have hp : ¬ 0 ≤ i := by omega
    simp [listGetInt, hp]
  · have hp : 0 ≤ i := by omega
    simp only [listGetInt, if_pos hp]
    rw [List.get?_eq_none]
    omega

/-- Counterexample to claim C2. The claimed walk order for the four-test
example tree is `[outer-test-1, nested-test-1, nested-test-2, outer-test-2]`,
but a full run executes all direct tests of a topic — including the trailing
one — before recursing into its subtopics, so the actual order is
`[outer-test-1, outer-test-2, nested-test-1, nested-test-2]`. -/
theorem fullRun_example_order_counterexample :
    exampleSuite.run = [tOuter1, tOuter2, tNested1, tNested2]
    ∧ exampleSuite.run ≠ [tOuter1, tNested1, tNested2, tOuter2] := by
  constructor
  · decide
  · decide

/-- Claim C2 as amended. A full (non-addressed) `Suite.run` visits every
Spec in order and walks the topic tree of each Spec depth-first pre-order,
executing all direct tests of a topic in insertion order before recursing
into its
subtopics left-to-right; for the four-test example tree the execution order
is `[outer-test-1, outer-test-2, nested-test-1, nested-test-2]`. -/
theorem fullRun_preorder :
    (∀ s : Suite, s.address = none →
      s.run = s.specs.flatMap (fun sp => sp.rootTopic.preorderTests))
    ∧ exampleSuite.run = [tOuter1, tOuter2, tNested1, tNested2] := by
  constructor
  · intro s ha
    simp only [Suite.run, ha]
    exact specsRun_flatMap s s.specs 0 rfl
  · decide

/-- Witness for `fullRun_preorder` at the example suite. -/
theorem fullRun_preorder_witness :
    exampleSuite.run
      = exampleSuite.specs.flatMap (fun sp => sp.rootTopic.preorderTests) :=
  fullRun_preorder.1 exampleSuite rfl

/-- Claim C3. For every topic chain, the `context` property equals the fold
of all fixture functions from the root topic down to that topic, applied in
root-to-leaf (and, within one topic, registration) order, each fixture
receiving the accumulated context, its return value replacing the
accumulator only when truthy; and a fixture returning a falsy value leaves
the prior context unchanged. -/
theorem context_is_root_to_leaf_fold {Ctx : Type} (env : Nat → Ctx → Option Ctx)
    (base : Ctx) (chain : List Topic) :
    contextOfChain env base chain
      = (chainFixturesRootToLeaf chain).foldl (fun c f => ((env f) c).getD c) base
    ∧ ∀ (c : Ctx) (f : Nat), env f c = none → ((env f) c).getD c = c := by
  constructor
  · induction chain with
    | nil => rfl
    | cons t rest ih =>
      simp only [contextOfChain, chainFixturesRootToLeaf] at ih ⊢
      rw [List.reverse_cons, List.map_append, List.flatten_append, List.foldl_append, ← ih]
      simp
  · intro c f h
    simp [h]

/-- Witness for `context_is_root_to_leaf_fold` with a concrete environment
over `Nat` contexts. -/
theorem context_is_root_to_leaf_fold_witness :
    contextOfChain demoEnv 0 [nestedTopic, exampleRootTopic]
      = (chainFixturesRootToLeaf [nestedTopic, exampleRootTopic]).foldl
          (fun c f => ((demoEnv f) c).getD c) 0
    ∧ (demoEnv 5 7).getD 7 = 7 :=
  ⟨(context_is_root_to_leaf_fold demoEnv 0 [nestedTopic, exampleRootTopic]).1,
   (context_is_root_to_leaf_fold demoEnv 0 [nestedTopic, exampleRootTopic]).2 7 5 (by decide)⟩

theorem cleanupLoop_take (l : List Nat) : ∀ n, n ≤ l.length →
    cleanupLoop l n = (l.take n).reverse := by
  intro n
  induction n with
  | zero => intro _; rfl
  | succ n ih =>
    intro h
    have hn : n < l.length := by omega
    have hget : l.get? n = some l[n] := by
      rw [List.get?_eq_getElem?]
      exact List.getElem?_eq_getElem hn
    simp only [cleanupLoop, hget]
    rw [ih (by omega), List.take_succ, List.getElem?_eq_getElem hn]
    show l[n] :: (l.take n).reverse = (l.take n ++ [l[n]]).reverse
    rw [List.reverse_append]
    rfl

theorem cleanupLoop_full (l : List Nat) : cleanupLoop l l.length = l.reverse := by
  rw [cleanupLoop_take l l.length le_rfl, List.take_length]

/-- Claim C4. For every topic chain and every context, `cleanupContext`
invokes the own cleanup functions of the topic in strict
reverse-registration order against the given context, and only after all
of them recurses into the `cleanupContext` of the parent topic, continuing
to the root: the invocation trace is the leaf-to-root concatenation of the
reversed cleanup
list, every invocation receiving the given context. -/
theorem cleanupContext_reverse_then_parent {Ctx : Type} (ctx : Ctx)
    (chain : List Topic) :
    cleanupContextTrace ctx chain
      = (chain.map (fun t => t.cleanups.reverse.map (fun c => (c, ctx)))).flatten := by
  induction chain with
  | nil => rfl
  | cons t rest ih =>
    simp only [cleanupContextTrace, List.map_cons, List.flatten_cons, ih,
      cleanupLoop_full]

/-- Claim C5. For every `SuiteAddress` with an out-of-range index at any
level — the spec index, some topic-path index (the bounds-checked walk
fails), or the test index — `getTestByAddress` returns not-found (`none`);
the function is total, so it cannot throw. -/
theorem getTestByAddress_out_of_range (s : Suite) (a : SuiteAddress) :
    ((a.spec < 0 ∨ (s.specs.length : Int) ≤ a.spec) → s.getTestByAddress a = none)
    ∧ (∀ sp, listGetInt s.specs a.spec = some sp →
        sp.rootTopic.topicAt a.topic = none → s.getTestByAddress a = none)
    ∧ (∀ sp tp, listGetInt s.specs a.spec = some sp →
        sp.rootTopic.topicAt a.topic = some tp →
        (a.test < 0 ∨ (tp.tests.length : Int) ≤ a.test) →
        s.getTestByAddress a = none) := by
  refine ⟨?_, ?_, ?_⟩
  · intro h
    simp [Suite.getTestByAddress, listGetInt_eq_none s.specs a.spec h]
  · intro sp h1 h2
    simp [Suite.getTestByAddress, h1, Spec.getTestByAddress, h2]
  · intro sp tp h1 h2 h3
    simp [Suite.getTestByAddress, h1, Spec.getTestByAddress, h2,
      listGetInt_eq_none tp.tests a.test h3]

/-- Witness for `getTestByAddress_out_of_range`: a topic-path index out of
range in the example suite. -/
theorem getTestByAddress_out_of_range_witness :
    exampleSuite.getTestByAddress ⟨0, [3], 0⟩ = none :=
  (getTestByAddress_out_of_range exampleSuite ⟨0, [3], 0⟩).2.1 exampleSpec
    (by decide) (by decide)

/-- Claim C6. The cloneable projection applied to a result whose error field
is a native failure object (one carrying a `message`) returns a different
value whose `passed` equals that of the input and whose error preserves only the
stack text — `message` and all other own properties are absent; applied to
a result with no (truthy) error it returns the input itself, with no
copy. -/
theorem cloneableResult_projection (r : RunResult) :
    (r.error = none → cloneableResult r = r)
    ∧ (∀ e, r.error = some e →
        cloneableResult r = ⟨r.passed, some ⟨none, e.stack, []⟩⟩)
    ∧ (∀ e m, r.error = some e → e.message = some m → cloneableResult r ≠ r) := by
  refine ⟨?_, ?_, ?_⟩
  · intro h
    simp [cloneableResult, h]
  · intro e h
    simp [cloneableResult, h]
  · intro e m h hm hcontra
    have h2 : (cloneableResult r).error = some ⟨none, e.stack, []⟩ := by
      simp [cloneableResult, h]
    rw [hcontra, h] at h2
    have h3 : e = ⟨none, e.stack, []⟩ := by
      injection h2
    have h4 := congrArg ErrObj.message h3
    rw [hm] at h4
    exact Option.noConfusion h4

/-- Witness for `cloneableResult_projection` at the concrete examples given
in the spec. -/
theorem cloneableResult_projection_witness :
    cloneableResult ⟨false, some ⟨some "hi", some "stacktext", []⟩⟩
      = ⟨false, some ⟨none, some "stacktext", []⟩⟩
    ∧ cloneableResult ⟨false, some ⟨some "hi", some "stacktext", []⟩⟩
      ≠ ⟨false, some ⟨some "hi", some "stacktext", []⟩⟩
    ∧ cloneableResult ⟨true, none⟩ = ⟨true, none⟩ :=
  ⟨(cloneableResult_projection ⟨false, some ⟨some "hi", some "stacktext", []⟩⟩).2.1
      ⟨some "hi", some "stacktext", []⟩ rfl,
   (cloneableResult_projection ⟨false, some ⟨some "hi", some "stacktext", []⟩⟩).2.2
      ⟨some "hi", some "stacktext", []⟩ "hi" rfl rfl,
   (cloneableResult_projection ⟨true, none⟩).1 rfl⟩

/-- Claim C7. For every executed test, `testRun` posts the cloneable-projected
result to the boundary listener regardless of the muted flag; muting
suppresses only the console report line; and the console line emitted for a
test marked isolated uses a distinct visual treatment from the one for a
non-isolated test. -/
theorem testRun_report (behaviorText : String) (result : RunResult) :
    (∀ muted isolated, SuiteEvent.post (cloneableResult result)
        ∈ Suite.testRun muted behaviorText isolated result)
    ∧ (∀ isolated, Suite.testRun true behaviorText isolated result
        = [SuiteEvent.post (cloneableResult result)])
    ∧ (∀ isolated, Suite.testRun false behaviorText isolated result
        = [SuiteEvent.consoleLog (reportLog behaviorText isolated result.passed),
           SuiteEvent.post (cloneableResult result)])
    ∧ (∀ passed, reportLog behaviorText true passed
        ≠ reportLog behaviorText false passed) := by
  refine ⟨?_, ?_, ?_, ?_⟩
  · intro muted isolated
    cases muted <;> simp [Suite.testRun]
  · intro isolated
    simp [Suite.testRun]
  · intro isolated
    simp [Suite.testRun]
  · intro passed hc
    have hlen := congrArg List.length hc
    simp [reportLog] at hlen

/-- Witness for `testRun_report`: the muted branch at a concrete test and
result. -/
theorem testRun_report_witness :
    Suite.testRun true "a spec has a test" false ⟨true, none⟩
      = [SuiteEvent.post (cloneableResult ⟨true, none⟩)]
    ∧ reportLog "a spec has a test" true true
      ≠ reportLog "a spec has a test" false true :=
  ⟨(testRun_report "a spec has a test" ⟨true, none⟩).2.1 false,
   (testRun_report "a spec has a test" ⟨true, none⟩).2.2.2 true⟩

/-- Claim C8. When a Suite runs in addressed mode and the parsed address
resolves to no test, `run` is a no-op: it executes no test and reports no
result (the event stream is empty for every assignment of behaviour texts
and results). -/
theorem addressedRun_miss_noop (s : Suite) (a : SuiteAddress)
    (ha : s.address = some a) (hmiss : s.getTestByAddress a = none) :
    s.run = [] ∧ ∀ bt ro, s.runEvents bt ro = [] := by
  have hrun : s.run = [] := by
    simp [Suite.run, ha, hmiss]
  exact ⟨hrun, fun bt ro => by simp [Suite.runEvents, hrun]⟩

/-- Witness for `addressedRun_miss_noop`: the example suite addressed at an
out-of-range topic path. -/
theorem addressedRun_miss_noop_witness :
    addressedMissSuite.run = []
    ∧ addressedMissSuite.runEvents (fun _ => "") (fun _ => ⟨true, none⟩) = [] :=
  ⟨(addressedRun_miss_noop addressedMissSuite ⟨0, [3], 0⟩ rfl (by decide)).1,
   (addressedRun_miss_noop addressedMissSuite ⟨0, [3], 0⟩ rfl (by decide)).2
     (fun _ => "") (fun _ => ⟨true, none⟩)⟩

/-- Counterexample to claim C9. The serialized-address parameter present with the
empty-string value — a value `JSON.parse` rejects — does not make the
constructor throw: the empty string is falsy, so the parse is skipped and
construction succeeds with a null address. -/
theorem construct_empty_param_counterexample :
    Suite.construct emptyRejectingParse [] ⟨some "", false⟩
      = Except.ok ⟨[], none, false⟩
    ∧ emptyRejectingParse ""
      = Except.error "SyntaxError: Unexpected end of JSON input" :=
  ⟨rfl, rfl⟩

/-- Claim C9 as amended. If the serialized-address query parameter is present
and truthy (non-empty) but fails to parse, the failure is raised
immediately during Suite construction rather than captured into any
per-test result; construction succeeds whenever the parameter is absent,
empty, or parses. -/
theorem construct_error_conditions (jsonParse : String → Except String SuiteAddress)
    (specs : List Spec) (qp : QueryParams) :
    (∀ str e, qp.suiteAddressParam = some str → str ≠ "" →
      jsonParse str = Except.error e →
      Suite.construct jsonParse specs qp = Except.error e)
    ∧ (qp.suiteAddressParam = none →
      Suite.construct jsonParse specs qp = Except.ok ⟨specs, none, qp.mutedPresent⟩)
    ∧ (qp.suiteAddressParam = some "" →
      Suite.construct jsonParse specs qp = Except.ok ⟨specs, none, qp.mutedPresent⟩)
    ∧ (∀ str a, qp.suiteAddressParam = some str → str ≠ "" →
      jsonParse str = Except.ok a →
      Suite.construct jsonParse specs qp
        = Except.ok ⟨specs, some a, qp.mutedPresent⟩) := by
  refine ⟨?_, ?_, ?_, ?_⟩
  · intro str e hq hne hp
    simp [Suite.construct, hq, hne, hp]
  · intro hq
    simp [Suite.construct, hq]
  · intro hq
    simp [Suite.construct, hq]
  · intro str a hq hne hp
    simp [Suite.construct, hq, hne, hp]

/-- Witness for `construct_error_conditions`: a present, non-empty,
unparseable parameter makes construction fail. -/
theorem construct_error_conditions_witness :
    Suite.construct emptyRejectingParse [] ⟨some "not json", false⟩
      = Except.error "SyntaxError: Unexpected end of JSON input" :=
  (construct_error_conditions emptyRejectingParse [] ⟨some "not json", false⟩).1
    "not json" "SyntaxError: Unexpected end of JSON input" rfl (by decide) rfl

/-- Claim C10. For every test whose topic chain does not terminate at the
root topic of any of the specs of the suite, `getAddressForTest` still
returns (it is total, so it cannot throw) an address whose spec component
is `-1` — and whose test component is `-1` when the test is absent from the
test list of its topic (or when it has no topic at all) — and feeding that address back into
`getTestByAddress` yields not-found. -/
theorem getAddressForTest_foreign (s : Suite) (test : Test) (chain : List Topic)
    (hroot : ∀ sp ∈ s.specs, ∀ root, chain.getLast? = some root →
      sp.rootTopic ≠ root) :
    (s.getAddressForTest test chain).spec = -1
    ∧ (∀ tp, chain.head? = some tp → test ∉ tp.tests →
        (s.getAddressForTest test chain).test = -1)
    ∧ (chain.head? = none → (s.getAddressForTest test chain).test = -1)
    ∧ s.getTestByAddress (s.getAddressForTest test chain) = none := by
  have hspec : (s.getAddressForTest test chain).spec = -1 := by
    cases chain with
    | nil => rfl
    | cons t rest =>
      obtain ⟨root, hlast⟩ : ∃ root, (t :: rest).getLast? = some root := by
        rw [← Option.isSome_iff_exists]
        simp [List.getLast?_isSome]
      have h2 := walkUp_snd s (t :: rest) root hlast
      simp only [Suite.getAddressForTest]
      rw [h2]
      exact findSpecIdx_no_match root s.specs
        (fun sp hm => hroot sp hm root hlast) 0 (-1)
  refine ⟨hspec, ?_, ?_, ?_⟩
  · intro tp hh habs
    simp only [Suite.getAddressForTest, hh]
    exact jsIndexOf_not_mem test tp.tests habs
  · intro hh
    simp [Suite.getAddressForTest, hh]
  · have hnone : listGetInt s.specs (s.getAddressForTest test chain).spec = none := by
      rw [hspec]
      simp [listGetInt]
    simp [Suite.getTestByAddress, hnone]

/-- Witness for `getAddressForTest_foreign`: a foreign test with a foreign
one-topic chain against the example suite. -/
theorem getAddressForTest_foreign_witness :
    (exampleSuite.getAddressForTest foreignTest [foreignTopic]).spec = -1
    ∧ (exampleSuite.getAddressForTest foreignTest [foreignTopic]).test = -1
    ∧ exampleSuite.getTestByAddress
        (exampleSuite.getAddressForTest foreignTest [foreignTopic]) = none :=
  ⟨(getAddressForTest_foreign exampleSuite foreignTest [foreignTopic] (by decide)).1,
   (getAddressForTest_foreign exampleSuite foreignTest [foreignTopic] (by decide)).2.1
     foreignTopic rfl (by decide),
   (getAddressForTest_foreign exampleSuite foreignTest [foreignTopic] (by decide)).2.2.2⟩

end Ristretto
